import Mathlib

/-!
Verification of the finite-element repository (src/Mesh.py, src/heat_solver.py).

The Python source is shallowly embedded over exact rational arithmetic:
numpy float arrays become lists or `Fin n → ℚ` vectors, numpy 2-D arrays
become Mathlib matrices, and Python `None` returns become `Option`.
External collaborators (the per-element assembly routines of `utils.matrices`
and the dense solver `np.linalg.solve`) are abstracted as parameters; the
few `utils` helpers whose contract the spec fixes are modelled from the
spec and marked as such in their doc comments.
-/

namespace FEM

/-- A vertex-valued field on a mesh with `n` vertices (a numpy 1-D array). -/
abbrev Vec (n : ℕ) : Type := Fin n → ℚ

/-- A dense `n × n` rational matrix (a numpy 2-D array). -/
abbrev Mat (n : ℕ) : Type := Matrix (Fin n) (Fin n) ℚ

/-- A triangular face: three vertex indices (one row of `Mesh.faces`). -/
abbrev Face : Type := ℕ × ℕ × ℕ

/-! ## HeatSolver (src/heat_solver.py) -/

/-- State held by `HeatSolver.__init__`: the mass matrix `M`, the stiffness
matrix `K`, the time step `dt` and the iteration count, for a mesh with `n`
vertices (`M` and `K` are assembled by the base-solver layer). -/
structure HeatSolver (n : ℕ) where
  M : Mat n
  K : Mat n
  dt : ℚ
  num_iterations : ℕ

/-- A Robin boundary condition: the triple `(W, g_D, g_N)` of functions of
position unpacked by `HeatSolver.solve`. -/
structure RobinBC where
  W : ℚ × ℚ → ℚ
  g_D : ℚ × ℚ → ℚ
  g_N : ℚ × ℚ → ℚ

/-- External collaborators invoked by `HeatSolver.solve`, abstracted as
parameters.  `loadVec f` stands for
`assemble_vector(points, faces, calculate_element_load_vector, f)`,
`boundaryMass W` for
`assemble_matrix(points, boundary, calculate_element_boundary_mass_matrix, W)`,
`boundaryLoad g` for
`assemble_vector(points, boundary, calculate_element_boundary_load_vector, g)`,
and `linsolve A v` for `np.linalg.solve(A, v)`. -/
structure AssemblyOracle (n : ℕ) where
  loadVec : ((ℚ × ℚ) → ℚ) → Vec n
  boundaryMass : ((ℚ × ℚ) → ℚ) → Mat n
  boundaryLoad : ((ℚ × ℚ) → ℚ) → Vec n
  linsolve : Mat n → Vec n → Vec n

/-- One backward-Euler step of the loop body of `HeatSolver.solve`:
`u = np.linalg.solve(self.M + K_temp * self.dt, self.M @ u + b * self.dt)`. -/
def heatStep {n : ℕ} (ls : Mat n → Vec n → Vec n) (M Ktemp : Mat n) (dt : ℚ)
    (b u : Vec n) : Vec n :=
  ls (M + dt • Ktemp) (M.mulVec u + dt • b)

/-- The successive entries appended to `u_values` by the `for` loop of
`HeatSolver.solve` (the initial `u_initial` entry excluded): `k` remaining
iterations starting from the current field `u`. -/
def heatUValues {n : ℕ} (ls : Mat n → Vec n → Vec n) (M Ktemp : Mat n) (dt : ℚ)
    (b : Vec n) : ℕ → Vec n → List (Vec n)
  | 0, _ => []
  | k + 1, u =>
    heatStep ls M Ktemp dt b u ::
      heatUValues ls M Ktemp dt b k (heatStep ls M Ktemp dt b u)

/-- The effective stiffness matrix used by `HeatSolver.solve`: `K_temp` is a
copy of `K`, with the assembled Robin boundary mass matrix `R` added when
`robin_bc` is given. -/
def effectiveK {n : ℕ} (s : HeatSolver n) (asm : AssemblyOracle n)
    (robin_bc : Option RobinBC) : Mat n :=
  match robin_bc with
  | none => s.K
  | some bc => s.K + asm.boundaryMass bc.W

/-- The effective load vector used by `HeatSolver.solve`: the assembled load
`b` for `load_function` (the zero function when omitted), with the assembled
Robin boundary load `r` (weight `W*g_D + g_N`) added when `robin_bc` is
given. -/
def effectiveLoad {n : ℕ} (asm : AssemblyOracle n) (robin_bc : Option RobinBC)
    (load_function : Option ((ℚ × ℚ) → ℚ)) : Vec n :=
  match robin_bc with
  | none => asm.loadVec (load_function.getD (fun _ => 0))
  | some bc =>
    asm.loadVec (load_function.getD (fun _ => 0)) +
      asm.boundaryLoad (fun x => bc.W x * bc.g_D x + bc.g_N x)

/-- The value returned by `HeatSolver.solve` (class `HeatSolverResult`). -/
structure HeatSolverResult (n : ℕ) where
  t_values : List ℚ
  u_values : List (Vec n)

/-- Shallow embedding of `HeatSolver.solve` (src/heat_solver.py, lines 22-49):
record `t = 0` with `u_initial`, then run `num_iterations` backward-Euler
steps, appending `dt * (i+1)` to `t_values` and the new field to `u_values`
at each step. -/
def HeatSolver.solve {n : ℕ} (s : HeatSolver n) (asm : AssemblyOracle n)
    (u_initial : Vec n) (robin_bc : Option RobinBC)
    (load_function : Option ((ℚ × ℚ) → ℚ)) : HeatSolverResult n :=
  { t_values := 0 :: (List.range s.num_iterations).map (fun (i : ℕ) => s.dt * ((i : ℚ) + 1)),
    u_values := u_initial ::
      heatUValues asm.linsolve s.M (effectiveK s asm robin_bc) s.dt
        (effectiveLoad asm robin_bc load_function) s.num_iterations u_initial }

theorem heatUValues_length {n : ℕ} (ls : Mat n → Vec n → Vec n) (M Ktemp : Mat n)
    (dt : ℚ) (b : Vec n) :
    ∀ (k : ℕ) (u : Vec n), (heatUValues ls M Ktemp dt b k u).length = k := by
  intro k
  induction k with
  | zero => intro u; simp [heatUValues]
  | succ k ih => intro u; simp [heatUValues, ih]

theorem heatUValues_chain {n : ℕ} (ls : Mat n → Vec n → Vec n) (M Ktemp : Mat n)
    (dt : ℚ) (b : Vec n) :
    ∀ (k : ℕ) (u0 : Vec n) (i : ℕ) (ui ui1 : Vec n),
      (u0 :: heatUValues ls M Ktemp dt b k u0).get? i = some ui →
      (u0 :: heatUValues ls M Ktemp dt b k u0).get? (i + 1) = some ui1 →
      ui1 = heatStep ls M Ktemp dt b ui := by
  intro k
  induction k with
  | zero =>
    intro u0 i ui ui1 _ h2
    rcases i with _ | j <;> simp [heatUValues] at h2
  | succ k ih =>
    intro u0 i ui ui1 h1 h2
    rcases i with _ | j
    · simp [heatUValues] at h1 h2
      rw [← h1, ← h2]
    · rw [List.get?_cons_succ] at h1 h2
      exact ih (heatStep ls M Ktemp dt b u0) j ui ui1 h1 h2

/-- Claim C1: every consecutively recorded pair `(u_i, u_{i+1})` of a call to
`HeatSolver.solve` satisfies the backward-Euler linear system
`(M + dt*K_eff) u_{i+1} = M u_i + dt*b_eff`, where `K_eff`/`b_eff` include the
assembled Robin boundary terms exactly when `robin_bc` is given and `b` is the
assembled load vector (zero load function when omitted), assuming the linear
solver returns a solution of the system it is handed. -/
theorem heat_solve_backward_euler_system {n : ℕ} (s : HeatSolver n)
    (asm : AssemblyOracle n) (u_initial : Vec n) (robin_bc : Option RobinBC)
    (load_function : Option ((ℚ × ℚ) → ℚ))
    (hsolve : ∀ v : Vec n,
      (s.M + s.dt • effectiveK s asm robin_bc).mulVec
        (asm.linsolve (s.M + s.dt • effectiveK s asm robin_bc) v) = v)
    (i : ℕ) (ui ui1 : Vec n)
    (h1 : (s.solve asm u_initial robin_bc load_function).u_values.get? i = some ui)
    (h2 : (s.solve asm u_initial robin_bc load_function).u_values.get? (i + 1) = some ui1) :
    (s.M + s.dt • effectiveK s asm robin_bc).mulVec ui1 =
      s.M.mulVec ui + s.dt • effectiveLoad asm robin_bc load_function := by
  have hstep := heatUValues_chain asm.linsolve s.M (effectiveK s asm robin_bc) s.dt
    (effectiveLoad asm robin_bc load_function) s.num_iterations u_initial i ui ui1 h1 h2
  rw [hstep]
  exact hsolve _

/-- Claim C2: a call to `HeatSolver.solve` with `num_iterations = N` records
exactly `N+1` time stamps and `N+1` field snapshots, with `t_values[k] = k*dt`
and `u_values[0] = u_initial`. -/
theorem heat_solve_result_shape {n : ℕ} (s : HeatSolver n) (asm : AssemblyOracle n)
    (u_initial : Vec n) (robin_bc : Option RobinBC)
    (load_function : Option ((ℚ × ℚ) → ℚ)) :
    (s.solve asm u_initial robin_bc load_function).t_values.length = s.num_iterations + 1 ∧
    (s.solve asm u_initial robin_bc load_function).u_values.length = s.num_iterations + 1 ∧
    (∀ k, k < s.num_iterations + 1 →
      (s.solve asm u_initial robin_bc load_function).t_values.get? k = some ((k : ℚ) * s.dt)) ∧
    (s.solve asm u_initial robin_bc load_function).u_values.get? 0 = some u_initial := by
  refine ⟨?_, ?_, ?_, rfl⟩
  · simp only [HeatSolver.solve, List.length_cons, List.length_map, List.length_range]
  · simp only [HeatSolver.solve, List.length_cons, heatUValues_length]
  · intro k hk
    rcases k with _ | j
    · simp only [HeatSolver.solve, List.get?_cons_zero, Nat.cast_zero, zero_mul]
    · have hj : j < s.num_iterations := by omega
      simp only [HeatSolver.solve, List.get?_cons_succ]
      rw [List.get?_map, List.get?_range hj, Option.map_some']
      congr 1
      push_cast
      ring

/-! ## Array-store model of the in-place effects of `HeatSolver.solve` (claim C9)

`solve` manipulates numpy arrays: `K_temp = self.K.copy()` allocates a fresh
array holding the value of `self.K`, and (under a Robin condition)
`K_temp += R` mutates that fresh array in place.  All other matrix
expressions of the method (`self.M + K_temp * self.dt`, `self.M @ u`) read
their operands and allocate new arrays, so `self.M` and `self.K` are never
written.  A small store of matrix cells makes this aliasing explicit. -/

/-- A heap of numpy matrix objects; python variables hold cell indices. -/
structure MatStore (n : ℕ) where
  cells : List (Mat n)

/-- Dereference a cell (out-of-range reads answer the zero matrix; the
modelled program only reads valid references). -/
def MatStore.read {n : ℕ} (st : MatStore n) (r : ℕ) : Mat n :=
  st.cells.getD r 0

/-- Allocate a fresh matrix object, returning the new store and its index. -/
def MatStore.alloc {n : ℕ} (st : MatStore n) (v : Mat n) : MatStore n × ℕ :=
  (⟨st.cells ++ [v]⟩, st.cells.length)

/-- Overwrite an existing cell in place (numpy `+=` on an array). -/
def MatStore.write {n : ℕ} (st : MatStore n) (r : ℕ) (v : Mat n) : MatStore n :=
  ⟨st.cells.set r v⟩

/-- The matrix-store effects of `HeatSolver.solve` (src/heat_solver.py, lines
26-33): `K_temp = self.K.copy()` allocates a fresh cell with the value of
`self.K`; if a Robin condition is given, `K_temp += R` writes only that fresh
cell (`robinR` is the assembled matrix `R`).  Returns the final store and the
reference held by `K_temp`. -/
def heatSolveMatEffects {n : ℕ} (st : MatStore n) (Mref Kref : ℕ)
    (robinR : Option (Mat n)) : MatStore n × ℕ :=
  let p := st.alloc (st.read Kref)
  match robinR with
  | none => p
  | some R => (p.1.write p.2 (p.1.read p.2 + R), p.2)

/-- Claim C9: after the effects of `HeatSolver.solve`, the cells of `self.M`
and `self.K` hold their original values — the Robin matrix is added only to
the fresh copy `K_temp`, whose final value is `K + R` (or `K` without a Robin
condition). -/
theorem heat_solve_preserves_M_K {n : ℕ} (st : MatStore n) (Mref Kref : ℕ)
    (robinR : Option (Mat n)) (hM : Mref < st.cells.length)
    (hK : Kref < st.cells.length) :
    (heatSolveMatEffects st Mref Kref robinR).1.read Mref = st.read Mref ∧
    (heatSolveMatEffects st Mref Kref robinR).1.read Kref = st.read Kref ∧
    (heatSolveMatEffects st Mref Kref robinR).1.read
        (heatSolveMatEffects st Mref Kref robinR).2 =
      (match robinR with
       | none => st.read Kref
       | some R => st.read Kref + R) := by
  have happ : ∀ r : ℕ, r < st.cells.length →
      (st.cells ++ [st.read Kref]).getD r 0 = st.cells.getD r 0 := by
    intro r hr
    exact List.getD_append _ _ _ _ hr
  have hsetρ : ∀ (v : Mat n) (r : ℕ), r < st.cells.length →
      ((st.cells ++ [st.read Kref]).set st.cells.length v).get? r =
        (st.cells ++ [st.read Kref]).get? r := by
    intro v r hr
    exact List.get?_set_ne _ _ (by omega)
  rcases robinR with _ | R
  · refine ⟨?_, ?_, ?_⟩
    · exact happ Mref hM
    · exact happ Kref hK
    · show (st.cells ++ [st.read Kref]).getD st.cells.length 0 = st.read Kref
      rw [List.getD_eq_getElem _ _ (by simp)]
      simp
  · refine ⟨?_, ?_, ?_⟩
    · show (((st.cells ++ [st.read Kref]).set st.cells.length _).getD Mref 0) = st.cells.getD Mref 0
      rw [List.getD_eq_getD_get?, List.getD_eq_getD_get?, hsetρ _ _ hM,
        ← List.getD_eq_getD_get?, ← List.getD_eq_getD_get?]
      exact happ Mref hM
    · show (((st.cells ++ [st.read Kref]).set st.cells.length _).getD Kref 0) = st.cells.getD Kref 0
      rw [List.getD_eq_getD_get?, List.getD_eq_getD_get?, hsetρ _ _ hK,
        ← List.getD_eq_getD_get?, ← List.getD_eq_getD_get?]
      exact happ Kref hK
    · show (((st.cells ++ [st.read Kref]).set st.cells.length
          ((st.cells ++ [st.read Kref]).getD st.cells.length 0 + R)).getD st.cells.length 0) =
        st.read Kref + R
      have hlen : st.cells.length < (st.cells ++ [st.read Kref]).length := by simp
      have hval : (st.cells ++ [st.read Kref]).getD st.cells.length 0 = st.read Kref := by
        rw [List.getD_eq_getElem _ _ hlen]
        simp
      rw [List.getD_eq_getElem _ _ (by simpa using hlen), List.getElem_set_self, hval]

/-! ### Concrete instances exercising the heat-solver theorems -/

/-- A one-vertex solver: identity mass matrix, zero stiffness, `dt = 1`,
one iteration. -/
def oneSolver : HeatSolver 1 := ⟨1, 0, 1, 1⟩

/-- A concrete assembly oracle on one vertex: zero assembled quantities, and a
linear solver that is exact for the identity system produced by `oneSolver`. -/
def idOracle : AssemblyOracle 1 := ⟨fun _ _ => 0, fun _ => 0, fun _ _ => 0, fun _ v => v⟩

/-- The zero field on one vertex. -/
def zeroVec1 : Vec 1 := fun _ => 0

/-- Witness for claim C1 at a concrete one-vertex instance. -/
theorem heat_solve_backward_euler_system_witness :
    (oneSolver.M + oneSolver.dt • effectiveK oneSolver idOracle none).mulVec
        (heatStep idOracle.linsolve oneSolver.M (effectiveK oneSolver idOracle none)
          oneSolver.dt (effectiveLoad idOracle none none) zeroVec1) =
      oneSolver.M.mulVec zeroVec1 + oneSolver.dt • effectiveLoad idOracle none none := by
  have hmat : oneSolver.M + oneSolver.dt • effectiveK oneSolver idOracle none = 1 := by
    show (1 : Mat 1) + (1 : ℚ) • (0 : Mat 1) = 1
    simp
  have hsolve : ∀ v : Vec 1,
      (oneSolver.M + oneSolver.dt • effectiveK oneSolver idOracle none).mulVec
        (idOracle.linsolve
          (oneSolver.M + oneSolver.dt • effectiveK oneSolver idOracle none) v) = v := by
    intro v
    show (oneSolver.M + oneSolver.dt • effectiveK oneSolver idOracle none).mulVec v = v
    rw [hmat, Matrix.one_mulVec]
  exact heat_solve_backward_euler_system oneSolver idOracle zeroVec1 none none hsolve
    0 zeroVec1 _ rfl rfl

/-- Witness for claim C2 at a concrete one-vertex instance. -/
theorem heat_solve_result_shape_witness :
    (oneSolver.solve idOracle zeroVec1 none none).t_values.get? 1 =
      some (((1 : ℕ) : ℚ) * oneSolver.dt) :=
  (heat_solve_result_shape oneSolver idOracle zeroVec1 none none).2.2.1 1 (by decide)

/-- A two-cell store holding `self.M` (the identity) at 0 and `self.K` (zero)
at 1. -/
def twoCellStore : MatStore 1 := ⟨[1, 0]⟩

/-- Witness for claim C9: on a concrete store, a Robin call leaves the `M` and
`K` cells unchanged. -/
theorem heat_solve_preserves_M_K_witness :
    (heatSolveMatEffects twoCellStore 0 1 (some 1)).1.read 0 = twoCellStore.read 0 ∧
    (heatSolveMatEffects twoCellStore 0 1 (some 1)).1.read 1 = twoCellStore.read 1 := by
  have h := heat_solve_preserves_M_K twoCellStore 0 1 (some 1)
    (by show 0 < ([1, 0] : List (Mat 1)).length; simp)
    (by show 1 < ([1, 0] : List (Mat 1)).length; simp)
  exact ⟨h.1, h.2.1⟩

/-! ## Mesh topology: edge extraction (src/Mesh.py, `Mesh._get_all_edges`) -/

/-- The three vertex indices of a face, in stored order (`face[0..2]`). -/
def faceVerts (f : Face) : List ℕ := [f.1, f.2.1, f.2.2]

/-- The three sides `[face[i], face[(i+1)%3]]` of a face, for `i = 0, 1, 2`. -/
def faceSides (f : Face) : List (ℕ × ℕ) := [(f.1, f.2.1), (f.2.1, f.2.2), (f.2.2, f.1)]

/-- `tuple(sorted(edge))`: an unordered vertex pair, smaller index first. -/
def sortEdge (p : ℕ × ℕ) : ℕ × ℕ := if p.1 ≤ p.2 then p else (p.2, p.1)

/-- Shallow embedding of `Mesh._get_all_edges` (src/Mesh.py, lines 138-145):
the set of sorted sides of all faces. -/
def get_all_edges (faces : List Face) : Finset (ℕ × ℕ) :=
  (faces.bind (fun f => (faceSides f).map sortEdge)).toFinset

/-- The contribution of a single face to `get_all_edges`. -/
def edgesOfFace (f : Face) : Finset (ℕ × ℕ) := ((faceSides f).map sortEdge).toFinset

theorem sortEdge_fst_le_snd (p : ℕ × ℕ) : (sortEdge p).1 ≤ (sortEdge p).2 := by
  rcases p with ⟨a, b⟩
  unfold sortEdge
  split_ifs with h <;> simp <;> omega

theorem sortEdge_pair_multiset (p : ℕ × ℕ) :
    ({(sortEdge p).1, (sortEdge p).2} : Multiset ℕ) = {p.1, p.2} := by
  rcases p with ⟨a, b⟩
  unfold sortEdge
  split_ifs with h
  · rfl
  · exact Multiset.cons_swap b a 0

theorem mem_edgesOfFace (f : Face) (e : ℕ × ℕ) :
    e ∈ edgesOfFace f ↔
      e = sortEdge (f.1, f.2.1) ∨ e = sortEdge (f.2.1, f.2.2) ∨ e = sortEdge (f.2.2, f.1) := by
  simp [edgesOfFace, faceSides, eq_comm]

theorem mem_edgesOfFace_iff (f : Face) (e : ℕ × ℕ) :
    e ∈ edgesOfFace f ↔
      e.1 ≤ e.2 ∧ ({e.1, e.2} : Multiset ℕ) ≤ (faceVerts f : Multiset ℕ) := by
  rcases f with ⟨a, b, c⟩
  have hco : (faceVerts (a, b, c) : Multiset ℕ) = ({a, b, c} : Multiset ℕ) := rfl
  rw [mem_edgesOfFace, hco]
  dsimp only
  constructor
  · rintro (rfl | rfl | rfl)
    · refine ⟨sortEdge_fst_le_snd _, ?_⟩
      rw [sortEdge_pair_multiset]
      exact Multiset.cons_le_cons a (Multiset.cons_le_cons b (Multiset.zero_le _))
    · refine ⟨sortEdge_fst_le_snd _, ?_⟩
      rw [sortEdge_pair_multiset]
      exact Multiset.le_cons_self _ _
    · refine ⟨sortEdge_fst_le_snd _, ?_⟩
      rw [sortEdge_pair_multiset]
      calc ({c, a} : Multiset ℕ) = {a, c} := Multiset.cons_swap c a 0
        _ ≤ {a, b, c} := Multiset.cons_le_cons a (Multiset.le_cons_self _ _)
  · rintro ⟨h1, h2⟩
    obtain ⟨x, y⟩ := e
    dsimp only at h1 h2
    have hx : x ∈ ({a, b, c} : Multiset ℕ) := Multiset.mem_of_le h2 (by simp)
    have hy : y ∈ ({a, b, c} : Multiset ℕ) := Multiset.mem_of_le h2 (by simp)
    simp only [Multiset.insert_eq_cons, Multiset.mem_cons, Multiset.mem_singleton] at hx hy
    by_cases hxy : x = y
    · subst hxy
      have hcnt := Multiset.le_iff_count.mp h2 x
      simp only [Multiset.insert_eq_cons, Multiset.count_cons, Multiset.count_singleton,
        Multiset.count_zero] at hcnt
      split_ifs at hcnt <;>
        first
          | omega
          | (subst_vars; simp [sortEdge])
    · rcases hx with rfl | rfl | rfl <;> rcases hy with rfl | rfl | rfl <;>
        first
          | exact absurd rfl hxy
          | (unfold sortEdge; dsimp only; split_ifs <;> first | (exfalso; omega) | simp)

theorem mem_get_all_edges (faces : List Face) (e : ℕ × ℕ) :
    e ∈ get_all_edges faces ↔ ∃ f ∈ faces, e ∈ edgesOfFace f := by
  simp [get_all_edges, edgesOfFace]

theorem edgesOfFace_congr {f g : Face}
    (h : (faceVerts f : Multiset ℕ) = (faceVerts g : Multiset ℕ)) :
    edgesOfFace f = edgesOfFace g := by
  ext e
  rw [mem_edgesOfFace_iff, mem_edgesOfFace_iff, h]

/-- Claim C4: `edges` holds each unordered pair at most once, stored smaller
index first; every side of every face appears; every stored edge is a side of
some face; and the resulting set depends only on the faces' vertex multisets,
independently of face-iteration order and the vertex order inside each face. -/
theorem get_all_edges_spec (faces : List Face) :
    (get_all_edges faces).toList.Nodup ∧
    (∀ e ∈ get_all_edges faces, e.1 ≤ e.2) ∧
    (∀ f ∈ faces, ∀ p ∈ faceSides f, sortEdge p ∈ get_all_edges faces) ∧
    (∀ e ∈ get_all_edges faces, ∃ f ∈ faces, ∃ p ∈ faceSides f, sortEdge p = e) ∧
    (∀ faces' : List Face,
      (faces.map (fun f => (faceVerts f : Multiset ℕ))).Perm
        (faces'.map (fun f => (faceVerts f : Multiset ℕ))) →
      get_all_edges faces = get_all_edges faces') := by
  refine ⟨Finset.nodup_toList _, ?_, ?_, ?_, ?_⟩
  · intro e he
    simp only [get_all_edges, List.mem_toFinset, List.mem_bind, List.mem_map] at he
    rcases he with ⟨f, _, p, _, rfl⟩
    exact sortEdge_fst_le_snd p
  · intro f hf p hp
    simp only [get_all_edges, List.mem_toFinset, List.mem_bind, List.mem_map]
    exact ⟨f, hf, p, hp, rfl⟩
  · intro e he
    simp only [get_all_edges, List.mem_toFinset, List.mem_bind, List.mem_map] at he
    rcases he with ⟨f, hf, p, hp, rfl⟩
    exact ⟨f, hf, p, hp, rfl⟩
  · intro faces' hperm
    ext e
    rw [mem_get_all_edges, mem_get_all_edges]
    constructor
    · rintro ⟨f, hf, he⟩
      have hmem : (faceVerts f : Multiset ℕ) ∈
          faces'.map (fun g => (faceVerts g : Multiset ℕ)) :=
        hperm.mem_iff.mp (List.mem_map_of_mem _ hf)
      rcases List.mem_map.mp hmem with ⟨g, hg, heq⟩
      exact ⟨g, hg, by rw [edgesOfFace_congr heq.symm] at he; exact he⟩
    · rintro ⟨g, hg, he⟩
      have hmem : (faceVerts g : Multiset ℕ) ∈
          faces.map (fun f => (faceVerts f : Multiset ℕ)) :=
        hperm.symm.mem_iff.mp (List.mem_map_of_mem _ hg)
      rcases List.mem_map.mp hmem with ⟨f, hf, heq⟩
      exact ⟨f, hf, by rw [edgesOfFace_congr heq.symm] at he; exact he⟩

/-- Witness for claim C4: a concrete membership, and invariance of the edge
set under rotating a face's vertices. -/
theorem get_all_edges_spec_witness :
    sortEdge (0, 1) ∈ get_all_edges [((0 : ℕ), 1, 2)] ∧
    get_all_edges [((0 : ℕ), 1, 2)] = get_all_edges [((2 : ℕ), 0, 1)] := by
  constructor
  · exact (get_all_edges_spec [((0 : ℕ), 1, 2)]).2.2.1 ((0 : ℕ), 1, 2) (by simp)
      (0, 1) (by simp [faceSides])
  · refine (get_all_edges_spec [((0 : ℕ), 1, 2)]).2.2.2.2 [((2 : ℕ), 0, 1)] ?_
    have hm : (faceVerts ((0 : ℕ), 1, 2) : Multiset ℕ) =
        (faceVerts ((2 : ℕ), 0, 1) : Multiset ℕ) := by decide
    simp only [List.map]
    rw [hm]

/-! ## Mesh.calculate_face_neighbors (src/Mesh.py, lines 118-125) -/

/-- Row indices of `np.where(self.faces == v)[0]` starting at row offset `g`:
each face index repeated once per occurrence of `v` among its vertices, in
ascending row order. -/
def npWhereRowsAux (v : ℕ) : List Face → ℕ → List ℕ
  | [], _ => []
  | f :: fs, g => List.replicate ((faceVerts f).count v) g ++ npWhereRowsAux v fs (g + 1)

/-- `np.where(self.faces == v)[0]` over the whole faces array. -/
def npWhereRows (faces : List Face) (v : ℕ) : List ℕ := npWhereRowsAux v faces 0

/-- Shallow embedding of `Mesh.calculate_face_neighbors`: for each face,
extend a candidate list with the `np.where` rows of each of its three
vertices, then keep exactly the indices appearing twice in that list. -/
def calculate_face_neighbors (faces : List Face) : List (List ℕ) :=
  faces.map (fun f =>
    let cands := (faceVerts f).bind (fun v => npWhereRows faces v)
    cands.filter (fun idx => cands.count idx == 2))

/-- The number of distinct vertices shared by two faces. -/
def sharedVertexCount (f g : Face) : ℕ :=
  ((faceVerts f).toFinset ∩ (faceVerts g).toFinset).card

theorem npWhereRowsAux_count (v : ℕ) :
    ∀ (fs : List Face) (g j : ℕ),
      (npWhereRowsAux v fs g).count j =
        if g ≤ j ∧ j < g + fs.length then
          (faceVerts (fs.getD (j - g) (0, 0, 0))).count v
        else 0 := by
  intro fs
  induction fs with
  | nil =>
    intro g j
    rw [npWhereRowsAux]
    simp only [List.count_nil, List.length_nil]
    split
    · omega
    · rfl
  | cons f fs ih =>
    intro g j
    rw [npWhereRowsAux, List.count_append, List.count_replicate, ih (g + 1) j]
    by_cases hj : j = g
    · subst hj
      rw [if_pos (by simp : (j == j) = true), if_neg (by omega), if_pos (by simp <;> omega)]
      simp
    · rw [if_neg (by simp; omega)]
      by_cases hc : g + 1 ≤ j ∧ j < g + 1 + fs.length
      · rw [if_pos hc, if_pos (by simp <;> omega)]
        have hsub : j - g = (j - (g + 1)) + 1 := by omega
        rw [hsub]
        simp
      · rw [if_neg hc, if_neg (by simp <;> omega)]

theorem npWhereRows_count (faces : List Face) (v j : ℕ) (hj : j < faces.length) :
    (npWhereRows faces v).count j = (faceVerts (faces.getD j (0, 0, 0))).count v := by
  rw [npWhereRows, npWhereRowsAux_count, if_pos ⟨Nat.zero_le _, by omega⟩]
  simp

theorem cands_count (faces : List Face) (f : Face) (j : ℕ) (hj : j < faces.length) :
    ((faceVerts f).bind (fun v => npWhereRows faces v)).count j =
      (faceVerts (faces.getD j (0, 0, 0))).count f.1 +
        (faceVerts (faces.getD j (0, 0, 0))).count f.2.1 +
        (faceVerts (faces.getD j (0, 0, 0))).count f.2.2 := by
  have hb : (faceVerts f).bind (fun v => npWhereRows faces v) =
      npWhereRows faces f.1 ++ (npWhereRows faces f.2.1 ++ (npWhereRows faces f.2.2 ++ [])) := by
    simp [faceVerts]
  rw [hb, List.count_append, List.count_append, List.count_append, List.count_nil,
    npWhereRows_count _ _ _ hj, npWhereRows_count _ _ _ hj, npWhereRows_count _ _ _ hj]
  omega

theorem length_filter_mem_eq_inter_card (l l' : List ℕ) (h : l.Nodup) :
    (l.filter (fun v => decide (v ∈ l'))).length = (l.toFinset ∩ l'.toFinset).card := by
  induction l with
  | nil => simp
  | cons x l ih =>
    rcases List.nodup_cons.mp h with ⟨hx, hl⟩
    by_cases hxl : x ∈ l'
    · rw [List.filter_cons_of_pos (by simpa), List.length_cons, ih hl, List.toFinset_cons,
        Finset.insert_inter_of_mem (List.mem_toFinset.mpr hxl),
        Finset.card_insert_of_not_mem (fun hc => hx (List.mem_toFinset.mp (Finset.mem_of_mem_inter_left hc)))]
    · rw [List.filter_cons_of_neg (by simpa), ih hl, List.toFinset_cons,
        Finset.insert_inter_of_not_mem (fun hc => hxl (List.mem_toFinset.mp hc))]

theorem filter_three_length (p q r : ℕ) (l' : List ℕ) :
    (([p, q, r] : List ℕ).filter (fun v => decide (v ∈ l'))).length =
      (if p ∈ l' then 1 else 0) + (if q ∈ l' then 1 else 0) + (if r ∈ l' then 1 else 0) := by
  by_cases h1 : p ∈ l' <;> by_cases h2 : q ∈ l' <;> by_cases h3 : r ∈ l' <;>
    simp [List.filter, h1, h2, h3]

theorem cands_count_eq_shared (faces : List Face)
    (hnd : ∀ f ∈ faces, (faceVerts f).Nodup) (A B : Fin faces.length) :
    ((faceVerts (faces.get A)).bind (fun v => npWhereRows faces v)).count B.val =
      sharedVertexCount (faces.get A) (faces.get B) := by
  have hgd : faces.getD B.val (0, 0, 0) = faces.get B := List.getD_eq_get _ _ B.isLt
  have hndA : (faceVerts (faces.get A)).Nodup := hnd _ (List.get_mem faces A.val A.isLt)
  have hndB : (faceVerts (faces.get B)).Nodup := hnd _ (List.get_mem faces B.val B.isLt)
  rw [cands_count faces _ _ B.isLt, hgd, sharedVertexCount,
    ← length_filter_mem_eq_inter_card _ _ hndA]
  have hfv : faceVerts (faces.get A) =
      [(faces.get A).1, (faces.get A).2.1, (faces.get A).2.2] := rfl
  rw [hfv, filter_three_length,
    List.count_eq_of_nodup hndB, List.count_eq_of_nodup hndB, List.count_eq_of_nodup hndB]

/-- Claim C5: an index `B` is listed among the neighbors of face `A` iff the
two faces share exactly two distinct vertices; the relation is irreflexive
and symmetric (for meshes whose faces have pairwise-distinct vertices, as any
mesh of positive-area triangles has). -/
theorem face_neighbors_spec (faces : List Face)
    (hnd : ∀ f ∈ faces, (faceVerts f).Nodup) (A B : Fin faces.length) :
    (B.val ∈ (calculate_face_neighbors faces).getD A.val [] ↔
      sharedVertexCount (faces.get A) (faces.get B) = 2) ∧
    A.val ∉ (calculate_face_neighbors faces).getD A.val [] ∧
    (B.val ∈ (calculate_face_neighbors faces).getD A.val [] ↔
      A.val ∈ (calculate_face_neighbors faces).getD B.val []) := by
  have hentry : ∀ C : Fin faces.length,
      (calculate_face_neighbors faces).getD C.val [] =
        ((faceVerts (faces.get C)).bind (fun v => npWhereRows faces v)).filter
          (fun idx =>
            ((faceVerts (faces.get C)).bind (fun v => npWhereRows faces v)).count idx == 2) := by
    intro C
    rw [calculate_face_neighbors, List.getD_eq_get _ _ (by simpa using C.isLt)]
    simp
  have hmem : ∀ C D : Fin faces.length,
      (D.val ∈ (calculate_face_neighbors faces).getD C.val [] ↔
        sharedVertexCount (faces.get C) (faces.get D) = 2) := by
    intro C D
    rw [hentry C]
    constructor
    · intro hd
      rcases List.mem_filter.mp hd with ⟨_, hcnt⟩
      have hcnt' :
          ((faceVerts (faces.get C)).bind (fun v => npWhereRows faces v)).count D.val = 2 := by
        simpa using hcnt
      rw [← cands_count_eq_shared faces hnd C D]
      exact hcnt'
    · intro hcard
      have hcnt : ((faceVerts (faces.get C)).bind (fun v => npWhereRows faces v)).count D.val = 2 := by
        rw [cands_count_eq_shared faces hnd C D]; exact hcard
      refine List.mem_filter.mpr ⟨List.count_pos_iff.mp (by omega), by simpa using hcnt⟩
  refine ⟨hmem A B, ?_, ?_⟩
  · intro hmemA
    have h3 : sharedVertexCount (faces.get A) (faces.get A) = 3 := by
      rw [sharedVertexCount, Finset.inter_self,
        List.toFinset_card_of_nodup (hnd _ (List.get_mem faces A.val A.isLt))]
      rfl
    have := (hmem A A).mp hmemA
    omega
  · rw [hmem A B, hmem B A]
    unfold sharedVertexCount
    rw [Finset.inter_comm]

/-- Witness for claim C5: in a concrete two-face mesh, face 1 is a neighbor
of face 0. -/
theorem face_neighbors_spec_witness :
    (1 : ℕ) ∈ (calculate_face_neighbors [((0 : ℕ), 1, 2), ((1 : ℕ), 2, 3)]).getD 0 [] := by
  have h := face_neighbors_spec [((0 : ℕ), 1, 2), ((1 : ℕ), 2, 3)]
    (by decide) ⟨0, by decide⟩ ⟨1, by decide⟩
  exact h.1.mpr (by decide)

/-! ## Mesh construction and metrics (src/Mesh.py) -/

/-- Modelled from the spec: `calculate_triangle_area` lives in `utils.helper`,
which is not among the sources; the spec fixes its contract as the planar
cross-product-over-2 triangle area, stored unsigned in `areas`. -/
def calculate_triangle_area (p q r : ℚ × ℚ) : ℚ :=
  |(q.1 - p.1) * (r.2 - p.2) - (r.1 - p.1) * (q.2 - p.2)| / 2

/-- The area of face `f` of a mesh with vertex coordinates `points`
(`calculate_triangle_area(self.points[face])`; Python would raise on an
out-of-range vertex index, modelled here by a default coordinate). -/
def areaOfFace (points : List (ℚ × ℚ)) (f : Face) : ℚ :=
  calculate_triangle_area (points.getD f.1 (0, 0)) (points.getD f.2.1 (0, 0))
    (points.getD f.2.2 (0, 0))

/-- The data held by a constructed `Mesh`: the three input arrays and the
derived fields computed by `Mesh.__init__`. -/
structure Mesh where
  points : List (ℚ × ℚ)
  faces : List Face
  boundary : List (ℕ × ℕ)
  boundary_idxs : List ℕ
  areas : List ℚ
  edges : Finset (ℕ × ℕ)

/-- Shallow embedding of `Mesh.__init__` (src/Mesh.py, lines 11-18): store the
three arrays and derive `boundary_idxs` (the deduplicated flattened boundary),
`areas` (per-face triangle areas, aligned with `faces`) and `edges`.  The
constructor performs no validation of its input. -/
def mkMesh (points : List (ℚ × ℚ)) (faces : List Face)
    (boundary : List (ℕ × ℕ)) : Mesh :=
  { points := points
    faces := faces
    boundary := boundary
    boundary_idxs := (boundary.bind (fun e => [e.1, e.2])).dedup
    areas := faces.map (areaOfFace points)
    edges := get_all_edges faces }

/-- `np.mean` of the three vertex values of a face. -/
def npMean3 (x y z : ℚ) : ℚ := (x + y + z) / 3

/-- The face-valued branch of `Mesh.calculate_total_value`:
`sum(self.areas[i] * u[i] for i in range(len(self.faces)))`. -/
def Mesh.faceValuedTotal (m : Mesh) (u : List ℚ) : ℚ :=
  ((List.range m.faces.length).map (fun i => m.areas.getD i 0 * u.getD i 0)).sum

/-- The vertex-valued branch of `Mesh.calculate_total_value`:
`sum(self.areas[i] * np.mean(u[self.faces[i]]) for i in range(len(self.faces)))`. -/
def Mesh.vertexValuedTotal (m : Mesh) (u : List ℚ) : ℚ :=
  ((List.range m.faces.length).map (fun i =>
    m.areas.getD i 0 *
      npMean3 (u.getD (m.faces.getD i (0, 0, 0)).1 0)
        (u.getD (m.faces.getD i (0, 0, 0)).2.1 0)
        (u.getD (m.faces.getD i (0, 0, 0)).2.2 0))).sum

/-- Shallow embedding of `Mesh.calculate_total_value` (src/Mesh.py, lines
95-99): dispatch on `len(u)`; when `u` matches neither the face count nor the
vertex count, the Python function falls through and returns `None`. -/
def Mesh.calculate_total_value (m : Mesh) (u : List ℚ) : Option ℚ :=
  if u.length = m.faces.length then some (m.faceValuedTotal u)
  else if u.length = m.points.length then some (m.vertexValuedTotal u)
  else none

/-- Shallow embedding of `Mesh.calculate_mean_value` (src/Mesh.py, lines
101-102): divide the total by the summed areas; on a `None` total the Python
division raises there (modelled as `none`). -/
def Mesh.calculate_mean_value (m : Mesh) (u : List ℚ) : Option ℚ :=
  (m.calculate_total_value u).map (fun t => t / m.areas.sum)

theorem getD_replicate_of_lt (k : ℕ) (c : ℚ) (i : ℕ) (h : i < k) :
    (List.replicate k c).getD i 0 = c := by
  rw [List.getD_eq_getElem _ _ (by simpa using h)]
  simp

theorem sum_range_getD_mul (l : List ℚ) (c : ℚ) :
    ((List.range l.length).map (fun i => l.getD i 0 * c)).sum = c * l.sum := by
  induction l with
  | nil => simp
  | cons x xs ih =>
    rw [List.length_cons, List.range_succ_eq_map, List.map_cons, List.map_map, List.sum_cons]
    have hmap : (List.range xs.length).map
          ((fun i => (x :: xs).getD i 0 * c) ∘ Nat.succ) =
        (List.range xs.length).map (fun i => xs.getD i 0 * c) := by
      apply List.map_congr_left
      intro i _
      simp
    rw [hmap, ih, List.getD_cons_zero, List.sum_cons]
    ring

/-- Claim C6: on any constructed mesh (with in-range face vertex indices), the
face-valued constant field and the vertex-valued constant field give the same
`calculate_total_value`, namely the constant times the summed face areas. -/
theorem total_value_constant_agreement (points : List (ℚ × ℚ)) (faces : List Face)
    (boundary : List (ℕ × ℕ)) (c : ℚ)
    (hidx : ∀ f ∈ faces, f.1 < points.length ∧ f.2.1 < points.length ∧
      f.2.2 < points.length) :
    (mkMesh points faces boundary).calculate_total_value
        (List.replicate faces.length c) =
      some (c * (mkMesh points faces boundary).areas.sum) ∧
    (mkMesh points faces boundary).calculate_total_value
        (List.replicate points.length c) =
      some (c * (mkMesh points faces boundary).areas.sum) := by
  have hfaces : (mkMesh points faces boundary).faces = faces := rfl
  have hpoints : (mkMesh points faces boundary).points = points := rfl
  have hareas : (mkMesh points faces boundary).areas.length = faces.length := by
    simp [mkMesh]
  have hface_total : ∀ u : List ℚ, (∀ i, i < faces.length → u.getD i 0 = c) →
      (mkMesh points faces boundary).faceValuedTotal u =
        c * (mkMesh points faces boundary).areas.sum := by
    intro u hu
    rw [Mesh.faceValuedTotal, hfaces]
    have hmap : (List.range faces.length).map
          (fun i => (mkMesh points faces boundary).areas.getD i 0 * u.getD i 0) =
        (List.range faces.length).map
          (fun i => (mkMesh points faces boundary).areas.getD i 0 * c) := by
      apply List.map_congr_left
      intro i hi
      rw [hu i (List.mem_range.mp hi)]
    rw [hmap, ← hareas, sum_range_getD_mul]
  constructor
  · rw [Mesh.calculate_total_value, if_pos (by simp [mkMesh])]
    rw [hface_total _ (fun i hi => getD_replicate_of_lt _ _ _ hi)]
  · by_cases hpf : points.length = faces.length
    · rw [Mesh.calculate_total_value, if_pos (by simp [mkMesh, hpf])]
      rw [hface_total _ (fun i hi => getD_replicate_of_lt _ _ _ (by omega))]
    · rw [Mesh.calculate_total_value, if_neg (by simp [mkMesh]; omega),
        if_pos (by simp [mkMesh])]
      congr 1
      rw [Mesh.vertexValuedTotal, hfaces]
      have hmap : (List.range faces.length).map
            (fun i =>
              (mkMesh points faces boundary).areas.getD i 0 *
                npMean3 ((List.replicate points.length c).getD (faces.getD i (0, 0, 0)).1 0)
                  ((List.replicate points.length c).getD (faces.getD i (0, 0, 0)).2.1 0)
                  ((List.replicate points.length c).getD (faces.getD i (0, 0, 0)).2.2 0)) =
          (List.range faces.length).map
            (fun i => (mkMesh points faces boundary).areas.getD i 0 * c) := by
        apply List.map_congr_left
        intro i hi
        have hif : faces.getD i (0, 0, 0) ∈ faces := by
          rw [List.getD_eq_get _ _ (List.mem_range.mp hi)]
          exact List.get_mem _ _ _
        rcases hidx _ hif with ⟨hb1, hb2, hb3⟩
        rw [getD_replicate_of_lt _ _ _ hb1, getD_replicate_of_lt _ _ _ hb2,
          getD_replicate_of_lt _ _ _ hb3]
        have hmean : npMean3 c c c = c := by
          rw [npMean3]; ring
        rw [hmean]
      rw [hmap, ← hareas, sum_range_getD_mul]

/-- Witness for claim C6 at a concrete one-triangle mesh with constant 5. -/
theorem total_value_constant_agreement_witness :
    (mkMesh [(0, 0), (1, 0), (0, 1)] [((0 : ℕ), 1, 2)] []).calculate_total_value
        (List.replicate 1 5) =
      some (5 * (mkMesh [(0, 0), (1, 0), (0, 1)] [((0 : ℕ), 1, 2)] []).areas.sum) ∧
    (mkMesh [(0, 0), (1, 0), (0, 1)] [((0 : ℕ), 1, 2)] []).calculate_total_value
        (List.replicate 3 5) =
      some (5 * (mkMesh [(0, 0), (1, 0), (0, 1)] [((0 : ℕ), 1, 2)] []).areas.sum) :=
  total_value_constant_agreement [(0, 0), (1, 0), (0, 1)] [((0 : ℕ), 1, 2)] [] 5
    (by decide)

/-- Claim C10: `calculate_total_value` dispatches solely on `len(u)` — the
face-valued branch fires whenever `len(u)` equals the face count (taking
precedence over the vertex-valued one), the vertex-valued branch fires when
only the vertex count matches, and otherwise the call returns `None` without
raising, so that `calculate_mean_value` fails only at its division. -/
theorem total_value_dispatch (m : Mesh) (u : List ℚ) :
    (u.length = m.faces.length →
      m.calculate_total_value u = some (m.faceValuedTotal u)) ∧
    (u.length ≠ m.faces.length → u.length = m.points.length →
      m.calculate_total_value u = some (m.vertexValuedTotal u)) ∧
    (u.length ≠ m.faces.length → u.length ≠ m.points.length →
      m.calculate_total_value u = none ∧ m.calculate_mean_value u = none) := by
  refine ⟨?_, ?_, ?_⟩
  · intro h1
    rw [Mesh.calculate_total_value, if_pos h1]
  · intro h1 h2
    rw [Mesh.calculate_total_value, if_neg h1, if_pos h2]
  · intro h1 h2
    have ht : m.calculate_total_value u = none := by
      rw [Mesh.calculate_total_value, if_neg h1, if_neg h2]
    exact ⟨ht, by rw [Mesh.calculate_mean_value, ht]; rfl⟩

/-- Witness for claim C10: on a one-triangle mesh a field of mismatched
length 2 produces `None` from the total and a failure of the mean. -/
theorem total_value_dispatch_witness :
    (mkMesh [(0, 0), (1, 0), (0, 1)] [((0 : ℕ), 1, 2)] []).calculate_total_value
        [3, 7] = none ∧
    (mkMesh [(0, 0), (1, 0), (0, 1)] [((0 : ℕ), 1, 2)] []).calculate_mean_value
        [3, 7] = none :=
  (total_value_dispatch (mkMesh [(0, 0), (1, 0), (0, 1)] [((0 : ℕ), 1, 2)] [])
    [3, 7]).2.2 (by decide) (by decide)

/-- Counterexample for claim C7: the constructor accepts a degenerate
(zero-area, collinear) face and builds the mesh — recording area `0` and
keeping the face — instead of rejecting the input with an error. -/
theorem mesh_ctor_accepts_degenerate :
    (mkMesh [(0, 0), (1, 0), (2, 0)] [((0 : ℕ), 1, 2)] []).areas = [0] ∧
    (mkMesh [(0, 0), (1, 0), (2, 0)] [((0 : ℕ), 1, 2)] []).faces = [((0 : ℕ), 1, 2)] := by
  constructor
  · show [areaOfFace [(0, 0), (1, 0), (2, 0)] ((0 : ℕ), 1, 2)] = [0]
    rw [areaOfFace, calculate_triangle_area]
    norm_num
  · rfl

/-- Claim C7 amended: the constructor performs no validation — for every
input, degenerate faces included, it builds the mesh, storing the three
arrays unchanged and recording each face's computed area (zero or negative
values included) rather than raising an error. -/
theorem mesh_ctor_total (points : List (ℚ × ℚ)) (faces : List Face)
    (boundary : List (ℕ × ℕ)) :
    (mkMesh points faces boundary).points = points ∧
    (mkMesh points faces boundary).faces = faces ∧
    (mkMesh points faces boundary).boundary = boundary ∧
    (∀ i : ℕ, (mkMesh points faces boundary).areas.get? i =
      (faces.get? i).map (areaOfFace points)) := by
  refine ⟨rfl, rfl, rfl, ?_⟩
  intro i
  show (faces.map (areaOfFace points)).get? i = _
  rw [List.get?_map]

/-! ## RectMesher (src/Mesh.py, lines 224-247) -/

/-- numpy `linspace(a, b, n)`: `n` evenly spaced samples from `a` to `b`
inclusive (`n = 1` yields the single sample `a`). -/
def linspace (a b : ℚ) (k : ℕ) : List ℚ :=
  (List.range k).map (fun (i : ℕ) => a + (b - a) * (i : ℚ) / ((k : ℚ) - 1))

/-- The configuration stored by `RectMesher.__init__`: two opposite corners
and the resolution `(nx, ny)`. -/
structure RectMesher where
  corners : (ℚ × ℚ) × (ℚ × ℚ)
  resolution : ℕ × ℕ

/-- The grid points built by `RectMesher.mesh`:
`[[x, y] for y in y_range for x in x_range]`. -/
def RectMesher.meshPoints (rm : RectMesher) : List (ℚ × ℚ) :=
  (linspace rm.corners.1.2 rm.corners.2.2 rm.resolution.2).bind (fun y =>
    (linspace rm.corners.1.1 rm.corners.2.1 rm.resolution.1).map (fun x => (x, y)))

/-- The faces built by `RectMesher.mesh`: each grid cell `(i, j)` is split
into two triangles, with `get_index(i, j) = j * nx + i`. -/
def RectMesher.meshFaces (rm : RectMesher) : List Face :=
  (List.range (rm.resolution.1 - 1)).bind (fun i =>
    (List.range (rm.resolution.2 - 1)).bind (fun j =>
      [(j * rm.resolution.1 + i, j * rm.resolution.1 + (i + 1),
          (j + 1) * rm.resolution.1 + (i + 1)),
        (j * rm.resolution.1 + i, (j + 1) * rm.resolution.1 + (i + 1),
          (j + 1) * rm.resolution.1 + i)]))

/-- Modelled from the spec: `get_boundary_from_points_faces` lives in `utils`,
which is not among the sources; the spec fixes its contract — one-sided edges
are boundary, two-sided edges are interior — so the boundary consists of the
edges belonging to exactly one face. -/
def get_boundary_from_points_faces (faces : List Face) : List (ℕ × ℕ) :=
  ((faces.bind (fun f => (faceSides f).map sortEdge)).dedup).filter
    (fun e => faces.countP (fun f => decide (e ∈ edgesOfFace f)) == 1)

/-- Shallow embedding of `RectMesher.mesh` (src/Mesh.py, lines 229-247):
build the grid points and cell faces, recover the boundary, and construct
the `Mesh`. -/
def RectMesher.mesh (rm : RectMesher) : Mesh :=
  mkMesh rm.meshPoints rm.meshFaces (get_boundary_from_points_faces rm.meshFaces)

theorem length_bind_const {α β : Type} (l : List α) (f : α → List β) (k : ℕ)
    (h : ∀ a ∈ l, (f a).length = k) : (l.bind f).length = l.length * k := by
  induction l with
  | nil => simp
  | cons x xs ih =>
    have hco : (x :: xs).bind f = f x ++ xs.bind f := rfl
    rw [hco, List.length_append, ih (fun a ha => h a (List.mem_cons_of_mem _ ha)),
      h x (List.mem_cons_self _ _), List.length_cons]
    ring

theorem linspace_length (a b : ℚ) (k : ℕ) : (linspace a b k).length = k := by
  simp [linspace]

theorem rect_mesher_points_length (rm : RectMesher) :
    rm.meshPoints.length = rm.resolution.1 * rm.resolution.2 := by
  rw [RectMesher.meshPoints,
    length_bind_const _ _ rm.resolution.1 (fun a _ => by simp [linspace_length]),
    linspace_length]
  ring

theorem rect_mesher_faces_length (rm : RectMesher) :
    rm.meshFaces.length = 2 * ((rm.resolution.1 - 1) * (rm.resolution.2 - 1)) := by
  rw [RectMesher.meshFaces]
  have hinner : ∀ i ∈ List.range (rm.resolution.1 - 1),
      ((List.range (rm.resolution.2 - 1)).bind (fun j =>
        ([(j * rm.resolution.1 + i, j * rm.resolution.1 + (i + 1),
            (j + 1) * rm.resolution.1 + (i + 1)),
          (j * rm.resolution.1 + i, (j + 1) * rm.resolution.1 + (i + 1),
            (j + 1) * rm.resolution.1 + i)] : List Face))).length =
      (rm.resolution.2 - 1) * 2 := by
    intro i _
    have h2 : ∀ j ∈ List.range (rm.resolution.2 - 1),
        (([(j * rm.resolution.1 + i, j * rm.resolution.1 + (i + 1),
            (j + 1) * rm.resolution.1 + (i + 1)),
          (j * rm.resolution.1 + i, (j + 1) * rm.resolution.1 + (i + 1),
            (j + 1) * rm.resolution.1 + i)] : List Face)).length = 2 :=
      fun j _ => rfl
    exact (length_bind_const _ _ 2 h2).trans (by rw [List.length_range])
  exact (length_bind_const _ _ ((rm.resolution.2 - 1) * 2) hinner).trans
    (by rw [List.length_range]; ring)

/-- Claim C3: for a resolution `(nx, ny)` with `nx, ny ≥ 2`, `RectMesher.mesh`
produces exactly `nx*ny` grid points and `2*(nx-1)*(ny-1)` triangular faces. -/
theorem rect_mesher_counts (rm : RectMesher) (hx : 2 ≤ rm.resolution.1)
    (hy : 2 ≤ rm.resolution.2) :
    rm.mesh.points.length = rm.resolution.1 * rm.resolution.2 ∧
    rm.mesh.faces.length = 2 * ((rm.resolution.1 - 1) * (rm.resolution.2 - 1)) :=
  ⟨rect_mesher_points_length rm, rect_mesher_faces_length rm⟩

/-- Witness for claim C3: `RectMesher(((0,0),(2,1)), resolution=(3,3))`
yields 9 points and 8 faces. -/
theorem rect_mesher_counts_witness :
    (RectMesher.mesh ⟨((0, 0), (2, 1)), (3, 3)⟩).points.length = 9 ∧
    (RectMesher.mesh ⟨((0, 0), (2, 1)), (3, 3)⟩).faces.length = 8 := by
  have h := rect_mesher_counts ⟨((0, 0), (2, 1)), (3, 3)⟩ (by decide) (by decide)
  exact ⟨h.1.trans (by norm_num), h.2.trans (by norm_num)⟩

/-- Counterexample for claim C8: the degenerate resolution `(1, 1)` is not
rejected — `RectMesher.mesh` still returns a constructed mesh, with a single
grid point, no faces and an empty boundary. -/
theorem rect_mesher_accepts_degenerate :
    (RectMesher.mesh ⟨((0, 0), (2, 1)), (1, 1)⟩).points.length = 1 ∧
    (RectMesher.mesh ⟨((0, 0), (2, 1)), (1, 1)⟩).faces = [] ∧
    (RectMesher.mesh ⟨((0, 0), (2, 1)), (1, 1)⟩).boundary = [] := by
  refine ⟨?_, rfl, rfl⟩
  decide

/-- Claim C8 amended: `RectMesher` performs no validation of its resolution;
for `nx < 2` or `ny < 2` its `mesh()` still returns a mesh — with `nx*ny`
grid points, an empty face list and an empty boundary — rather than raising
an error before computation. -/
theorem rect_mesher_degenerate_mesh (rm : RectMesher)
    (h : rm.resolution.1 < 2 ∨ rm.resolution.2 < 2) :
    rm.mesh.points.length = rm.resolution.1 * rm.resolution.2 ∧
    rm.mesh.faces = [] ∧
    rm.mesh.boundary = [] := by
  have hfaces : rm.meshFaces = [] := by
    apply List.eq_nil_of_length_eq_zero
    rw [rect_mesher_faces_length]
    rcases h with h | h
    · have : rm.resolution.1 - 1 = 0 := by omega
      rw [this]
      ring
    · have : rm.resolution.2 - 1 = 0 := by omega
      rw [this]
      ring
  refine ⟨rect_mesher_points_length rm, hfaces, ?_⟩
  show get_boundary_from_points_faces rm.meshFaces = []
  rw [hfaces]
  rfl

/-- Witness for claim C8 (amended): resolution `(2, 1)` yields two points and
no faces. -/
theorem rect_mesher_degenerate_mesh_witness :
    (RectMesher.mesh ⟨((0, 0), (1, 1)), (2, 1)⟩).faces = [] ∧
    (RectMesher.mesh ⟨((0, 0), (1, 1)), (2, 1)⟩).points.length = 2 * 1 := by
  have h := rect_mesher_degenerate_mesh ⟨((0, 0), (1, 1)), (2, 1)⟩ (Or.inr (by decide))
  exact ⟨h.2.1, h.1⟩

end FEM
